import Mathlib

/-!
Verification of the trade-bound and liquidity-identity engine of the
`tickspread/services` repository.

The development shallowly embeds:
  * `crates/solvers/src/domain/dex/slippage.rs` — the `Limits`, `Slippage`
    and `Prices` types and their operations, together with the relevant
    behaviour of the `bigdecimal` crate (arbitrary-precision decimals as an
    unscaled-integer / power-of-ten-exponent pair) and the `conv` helpers;
  * `crates/shared/src/sources/uniswap_v2.rs` — the pair provider and the
    deterministic CREATE2 pool-address derivation (Keccak-256 implemented in
    full).

Machine integers (`U256`) are embedded as `ℕ` with explicit clamping at
`2 ^ 256 - 1`; fallible operations (Rust panics) are embedded as `Option`.
-/

/-- Arbitrary-precision decimal, mirroring the `bigdecimal` crate's
representation: an unscaled big integer `intVal` together with a power-of-ten
exponent `scale`.  The denoted value is `intVal * 10 ^ (-scale)`. -/
structure BigDecimal where
  intVal : ℤ
  scale : ℤ
deriving DecidableEq, Repr

/-- Rational value denoted by a `BigDecimal`. -/
def BigDecimal.toRat (d : BigDecimal) : ℚ :=
  (d.intVal : ℚ) * (10 : ℚ) ^ (-d.scale)

/-- Multiplication of decimals, as implemented by the `bigdecimal` crate:
unscaled parts multiply, scales add. -/
def bdMul (a b : BigDecimal) : BigDecimal :=
  ⟨a.intVal * b.intVal, a.scale + b.scale⟩

/-- The `Ord` instance of `bigdecimal` compares denoted values, so
`std::cmp::min(a, b)` returns `a` when `a ≤ b` as rationals and `b`
otherwise. -/
def bdMin (a b : BigDecimal) : BigDecimal :=
  if a.toRat ≤ b.toRat then a else b

/-- Decimal-shift loop of `bigdecimal`'s `impl_division`: multiply the
numerator by ten (incrementing the scale) until it is at least the
denominator. -/
def shiftLoop (den num : ℕ) (scale : ℤ) : ℕ × ℤ :=
  if num = 0 then (num, scale)
  else if num < den then shiftLoop den (num * 10) (scale + 1)
  else (num, scale)
termination_by den - num
decreasing_by simp_wf; omega

/-- Digit-production loop of `bigdecimal`'s `impl_division`: produce one
quotient digit at a time while the remainder is non-zero and the quotient has
fewer than `ceil(100 * log2 10) = 332` bits.  The loop of the crate is
unbounded; here it carries fuel that is never exhausted on reachable inputs
(each step adds at least one bit and the fuel exceeds the bit bound). -/
def digitLoop (den : ℕ) : ℕ → ℕ → ℕ → ℤ → ℕ × ℕ × ℤ
  | 0, q, r, scale => (q, r, scale)
  | fuel + 1, q, r, scale =>
    if r = 0 ∨ 332 ≤ Nat.size q then (q, r, scale)
    else digitLoop den fuel (q * 10 + r / den) (r % den * 10) (scale + 1)

/-- Division of decimals, mirroring `bigdecimal`'s `impl Div`: `none` models
the crate's division-by-zero panic; a zero dividend and a divisor equal to
one return the dividend unchanged; equal unscaled parts short-circuit to one;
otherwise decimal long division runs to at most 100 digits of precision and
rounds the final digit half away from zero. -/
def bdDiv (a b : BigDecimal) : Option BigDecimal :=
  if b.intVal = 0 then none
  else if a.intVal = 0 then some a
  else if b.toRat = 1 then some a
  else if a.intVal = b.intVal then some ⟨1, a.scale - b.scale⟩
  else
    let den := b.intVal.natAbs
    let p := shiftLoop den a.intVal.natAbs (a.scale - b.scale)
    let q0 := p.1 / den
    let r0 := p.1 % den * 10
    let t := digitLoop den 400 q0 r0 p.2
    let q1 := if t.2.1 = 0 then t.1
      else t.1 + (if 5 ≤ t.2.1 / den then 1 else 0)
    let sgn : ℤ := if (a.intVal < 0) = (b.intVal < 0) then 1 else -1
    some ⟨sgn * q1, t.2.2⟩

/-- Modelled from the spec: `util::conv::ether_to_decimal` (not under `src/`)
converts a wei amount (a `U256`, embedded as `ℕ`) into the common numeraire
decimal representation, i.e. an unscaled integer with scale 18. -/
def etherToDecimal (e : ℕ) : BigDecimal :=
  ⟨(e : ℤ), 18⟩

/-- An auction reference price, `auction::Price(eth::Ether)`; the wrapped
`Ether` is a wei amount embedded as `ℕ`. -/
structure Price where
  ether : ℕ
deriving DecidableEq, Repr

/-- An asset: token address (an `H160`, embedded as `ℕ`) and a `U256`
amount. -/
structure Asset where
  token : ℕ
  amount : ℕ
deriving DecidableEq, Repr

/-- An auction token entry; of the source's fields only `reference_price` is
relevant to the price table. -/
structure Token where
  reference_price : Option Price
deriving DecidableEq, Repr

/-- Observable behaviour of an empty `HashMap`. -/
def hmEmpty : ℕ → Option BigDecimal := fun _ => none

/-- Observable behaviour of `HashMap` insertion: the new binding shadows any
previous binding of the same key. -/
def hmInsert (m : ℕ → Option BigDecimal) (k : ℕ) (v : BigDecimal) :
    ℕ → Option BigDecimal :=
  fun q => if q = k then some v else m q

/-- Observable behaviour of collecting a key-value sequence into a `HashMap`:
insert in order, so a later binding overwrites an earlier one. -/
def hmOfList (l : List (ℕ × BigDecimal)) : ℕ → Option BigDecimal :=
  l.foldl (fun m kv => hmInsert m kv.1 kv.2) hmEmpty

/-- Token reference prices for an auction (`Prices` in the source), embedded
by its lookup function. -/
structure Prices where
  get : ℕ → Option BigDecimal

/-- `Prices::new`: convert each price to a decimal and collect into a map. -/
def Prices.new (input : List (ℕ × Price)) : Prices :=
  ⟨hmOfList (input.map (fun kv => (kv.1, etherToDecimal kv.2.ether)))⟩

/-- `Prices::for_auction`: keep exactly the tokens carrying a reference
price. -/
def Prices.forAuction (tokens : List (ℕ × Token)) : Prices :=
  Prices.new (tokens.filterMap
    (fun kv => kv.2.reference_price.map (fun pr => (kv.1, pr))))

/-- DEX swap slippage limits: a relative bound and an optional absolute Ether
(wei) bound. -/
structure Limits where
  relative : BigDecimal
  absolute : Option ℕ

/-- `Limits::new`: succeeds exactly when the relative bound lies in `[0, 1]`
(a value-level comparison via the decimal `Ord` instance); the absolute bound
is not validated. -/
def Limits.new (relative : BigDecimal) (absolute : Option ℕ) : Option Limits :=
  if 0 ≤ relative.toRat ∧ relative.toRat ≤ 1 then some ⟨relative, absolute⟩
  else none

/-- A relative slippage tolerance (`Slippage` in the source). -/
structure Slippage where
  val : BigDecimal
deriving DecidableEq, Repr

/-- Fraction denoted by a slippage tolerance. -/
def Slippage.toRat (s : Slippage) : ℚ :=
  s.val.toRat

/-- `Limits::relative`: when the absolute cap is set and a reference price is
known for the token, cap the relative bound by `absolute / (amount * price)`;
otherwise use the relative bound as is.  The `none` result embeds the
division-by-zero panic of the decimal division. -/
def Limits.relativeTol (l : Limits) (asset : Asset) (prices : Prices) :
    Option Slippage :=
  match l.absolute, prices.get asset.token with
  | some ab, some price =>
    (bdDiv (etherToDecimal ab) (bdMul (etherToDecimal asset.amount) price)).map
      (fun maxRelative => ⟨bdMin maxRelative l.relative⟩)
  | some _, none => some ⟨l.relative⟩
  | none, _ => some ⟨l.relative⟩

/-- Saturating 256-bit addition on embedded `U256` values. -/
def satAdd256 (a b : ℕ) : ℕ :=
  min (a + b) (2 ^ 256 - 1)

/-- `Slippage::abs`: the absolute slippage amount.  The `none` result embeds
the panic of `to_biguint().expect(..)` on a negative unscaled part; the
exponent is clamped at `u32::MAX` as by `try_into().unwrap_or(u32::MAX)`; the
big-integer ceiling quotient is converted back to `U256`, saturating at
`U256::max_value()`. -/
def Slippage.abs (s : Slippage) (amount : ℕ) : Option ℕ :=
  if s.val.intVal < 0 then none
  else
    let numer := amount * s.val.intVal.toNat
    let denom := 10 ^ min s.val.scale.natAbs (2 ^ 32 - 1)
    some (min ((numer + denom - 1) / denom) (2 ^ 256 - 1))

/-- `Slippage::add`: saturating addition of the absolute slippage amount. -/
def Slippage.add (s : Slippage) (amount : ℕ) : Option ℕ :=
  (s.abs amount).map (fun d => satAdd256 amount d)

/-- `Slippage::sub`: saturating subtraction of the absolute slippage amount
(truncated `ℕ` subtraction clamps at zero exactly as `saturating_sub`). -/
def Slippage.sub (s : Slippage) (amount : ℕ) : Option ℕ :=
  (s.abs amount).map (fun d => amount - d)

/-- Bitwise rotation of a 64-bit lane (a `ℕ` kept below `2 ^ 64`) left by
`n < 64` bits. -/
def rot64 (x n : ℕ) : ℕ :=
  ((x <<< n) % 2 ^ 64) ||| (x >>> (64 - n))

/-- Bitwise complement of a 64-bit lane. -/
def not64 (x : ℕ) : ℕ :=
  x ^^^ (2 ^ 64 - 1)

/-- State of the degree-8 LFSR (polynomial `x^8 + x^6 + x^5 + x^4 + 1`) that
generates the Keccak round-constant bits, after `t` steps. -/
def lfsrState : ℕ → ℕ
  | 0 => 1
  | t + 1 =>
    let r := lfsrState t * 2
    if 256 ≤ r then (r ^^^ 0x171) % 256 else r

/-- Keccak-f[1600] round constants: round `i` sets bit `2^j - 1` to the LFSR
bit `rc(j + 7i)`, for `j = 0, …, 6`. -/
def keccakRC : List ℕ :=
  (List.range 24).map (fun i =>
    (List.range 7).foldl
      (fun acc j => acc + lfsrState (j + 7 * i) % 2 * 2 ^ (2 ^ j - 1)) 0)

/-- Keccak rho rotation offsets as an association list from lane index
`x + 5 * y` to the rotation amount `(t+1)(t+2)/2 mod 64`, generated by the
standard coordinate walk `(x, y) ↦ (y, 2x + 3y)` starting at `(1, 0)`. -/
def keccakRhoPairs : List (ℕ × ℕ) :=
  ((List.range 24).foldl
    (fun st t =>
      ((st.1.2, (2 * st.1.1 + 3 * st.1.2) % 5),
        (st.1.1 + 5 * st.1.2, (t + 1) * (t + 2) / 2 % 64) :: st.2))
    (((1, 0) : ℕ × ℕ), ([] : List (ℕ × ℕ)))).2

/-- Rotation offset of a lane; the unvisited lane `(0, 0)` rotates by zero. -/
def keccakRho (j : ℕ) : ℕ :=
  ((keccakRhoPairs.find? (fun q => q.1 == j)).map Prod.snd).getD 0

/-- Theta step of Keccak-f: xor each lane with the parity of two adjacent
columns.  The state is a list of 25 lanes, lane `(x, y)` at index
`x + 5 * y`. -/
def keccakTheta (s : List ℕ) : List ℕ :=
  let c := fun x : ℕ =>
    s.getD x 0 ^^^ s.getD (x + 5) 0 ^^^ s.getD (x + 10) 0 ^^^
      s.getD (x + 15) 0 ^^^ s.getD (x + 20) 0
  let d := fun x : ℕ => c ((x + 4) % 5) ^^^ rot64 (c ((x + 1) % 5)) 1
  List.ofFn (fun i : Fin 25 => s.getD i 0 ^^^ d (i % 5))

/-- Combined rho and pi steps: lane `(x, y)` is rotated by its offset and
moved to position `(y, 2x + 3y)`. -/
def keccakRhoPi (s : List ℕ) : List ℕ :=
  List.ofFn (fun j : Fin 25 =>
    let a := (j : ℕ) % 5
    let b := (j : ℕ) / 5
    let x := 3 * (b + 2 * a) % 5
    let y := a
    rot64 (s.getD (x + 5 * y) 0) (keccakRho (x + 5 * y)))

/-- Chi step: combine each lane with the two lanes to its right in the same
row. -/
def keccakChi (s : List ℕ) : List ℕ :=
  List.ofFn (fun j : Fin 25 =>
    let x := (j : ℕ) % 5
    let y := (j : ℕ) / 5
    s.getD ((j : ℕ)) 0 ^^^
      (not64 (s.getD ((x + 1) % 5 + 5 * y) 0) &&& s.getD ((x + 2) % 5 + 5 * y) 0))

/-- Iota step: xor a round constant into lane (0, 0). -/
def keccakIota (rc : ℕ) (s : List ℕ) : List ℕ :=
  List.ofFn (fun j : Fin 25 =>
    if (j : ℕ) = 0 then s.getD 0 0 ^^^ rc else s.getD (j : ℕ) 0)

/-- One Keccak-f round. -/
def keccakRound (s : List ℕ) (rc : ℕ) : List ℕ :=
  keccakIota rc (keccakChi (keccakRhoPi (keccakTheta s)))

/-- The full Keccak-f[1600] permutation (24 rounds). -/
def keccakF (s : List ℕ) : List ℕ :=
  keccakRC.foldl keccakRound s

/-- Interpret eight bytes as a little-endian 64-bit lane. -/
def bytesToLaneLE (bs : List ℕ) : ℕ :=
  bs.foldr (fun b acc => acc * 256 + b) 0

/-- Serialize a 64-bit lane into eight little-endian bytes. -/
def laneToBytesLE (x : ℕ) : List ℕ :=
  List.ofFn (fun k : Fin 8 => x / 256 ^ (k : ℕ) % 256)

/-- Split a byte string into rate-sized (136-byte) blocks. -/
def keccakChunks (l : List ℕ) : List (List ℕ) :=
  if l = [] then []
  else l.take 136 :: keccakChunks (l.drop 136)
termination_by l.length
decreasing_by
  simp_wf
  rename_i h
  have : l.length ≠ 0 := fun hn => h (List.eq_nil_of_length_eq_zero hn)
  omega

/-- Absorb one 136-byte block into the sponge state and permute. -/
def keccakAbsorb (s : List ℕ) (block : List ℕ) : List ℕ :=
  keccakF (List.ofFn (fun j : Fin 25 =>
    if (j : ℕ) < 17 then
      s.getD (j : ℕ) 0 ^^^ bytesToLaneLE ((block.drop (8 * (j : ℕ))).take 8)
    else s.getD (j : ℕ) 0))

/-- Keccak-256 (the original Keccak padding with suffix byte 0x01, as used by
Ethereum): pad, absorb all blocks, and squeeze 32 bytes. -/
def keccak256 (msg : List ℕ) : List ℕ :=
  let padLen := 136 - msg.length % 136
  let padding :=
    if padLen = 1 then [0x81]
    else 0x01 :: (List.replicate (padLen - 2) 0 ++ [0x80])
  let st := (keccakChunks (msg ++ padding)).foldl keccakAbsorb
    (List.replicate 25 0)
  (List.range 4).flatMap (fun i => laneToBytesLE (st.getD i 0))

/-- Big-endian byte serialization of a natural number into `len` bytes. -/
def natToBytesBE (len n : ℕ) : List ℕ :=
  List.ofFn (fun i : Fin len => n / 256 ^ (len - 1 - (i : ℕ)) % 256)

/-- Big-endian byte-string to natural number. -/
def bytesToNatBE (bs : List ℕ) : ℕ :=
  bs.foldl (fun acc b => acc * 256 + b) 0

/-- A Uniswap V2 pair provider: the factory address together with the pair
contract's init-code digest. -/
structure PairProvider where
  factory : ℕ
  init_code_digest : List ℕ
deriving DecidableEq, Repr

/-- The `INIT_CODE_DIGEST` constant of `sources/uniswap_v2.rs`. -/
def INIT_CODE_DIGEST : List ℕ :=
  [0x96, 0xe8, 0xac, 0x42, 0x77, 0x19, 0x8f, 0xf8,
   0xb6, 0xf7, 0x85, 0x47, 0x8a, 0xa9, 0xa3, 0x9f,
   0x40, 0x3c, 0xb7, 0x68, 0xdd, 0x02, 0xcb, 0xee,
   0x32, 0x6c, 0x3e, 0x7d, 0xa3, 0x48, 0x84, 0x5f]

/-- `pair_provider_for_factory`: a pair provider for the given factory
address. -/
def pair_provider_for_factory (factory_address : ℕ) : PairProvider :=
  ⟨factory_address, INIT_CODE_DIGEST⟩

/-- Modelled from the spec: the canonical ordering of a token pair
(`model::TokenPair::new`, not under `src/`): the two addresses in ascending
numeric order, or nothing when they coincide. -/
def tokenPairNew (a b : ℕ) : Option (ℕ × ℕ) :=
  if a < b then some (a, b)
  else if b < a then some (b, a)
  else none

/-- Modelled from the spec: the CREATE2 address-derivation formula — the low
20 bytes of `keccak256(0xff ++ deployer ++ salt ++ digest)`. -/
def create2Address (deployer : ℕ) (salt digest : List ℕ) : ℕ :=
  bytesToNatBE
    ((keccak256 (0xff :: (natToBytesBE 20 deployer ++ salt ++ digest))).drop 12)

/-- Modelled from the spec: `PairProvider::pair_address` (not under `src/`):
the CREATE2 address with salt `keccak256(token0 ++ token1)` over the
canonically ordered pair. -/
def pairAddress (p : PairProvider) (t0 t1 : ℕ) : ℕ :=
  create2Address p.factory
    (keccak256 (natToBytesBE 20 t0 ++ natToBytesBE 20 t1)) p.init_code_digest

/-- Modelled from the spec: full pool-address resolution over an unordered
token pair; `none` exactly when the two tokens coincide. -/
def resolve_pool_address (p : PairProvider) (a b : ℕ) : Option ℕ :=
  (tokenPairNew a b).map (fun q => pairAddress p q.1 q.2)

/-- Ceiling-division characterization: `(m + D - 1) / D` scaled back by `D`
straddles `m`. -/
lemma ceilDiv_spec (m D : ℕ) (hD : 0 < D) :
    m ≤ ((m + D - 1) / D) * D ∧ ((m + D - 1) / D) * D < m + D := by
  have hub : ((m + D - 1) / D) * D ≤ m + D - 1 := Nat.div_mul_le_self _ _
  have hlb : m + D - 1 < ((m + D - 1) / D + 1) * D := by
    rw [← Nat.div_lt_iff_lt_mul hD]
    exact Nat.lt_succ_self _
  rw [Nat.add_mul, Nat.one_mul] at hlb
  generalize hX : ((m + D - 1) / D) * D = X at hub hlb ⊢
  omega

/-- The denoted value of a decimal is non-negative exactly when its unscaled
part is. -/
lemma toRat_nonneg_iff (d : BigDecimal) : 0 ≤ d.toRat ↔ 0 ≤ d.intVal := by
  unfold BigDecimal.toRat
  have hp : (0 : ℚ) < (10 : ℚ) ^ (-d.scale) := zpow_pos (by norm_num) _
  constructor
  · intro h
    by_contra hneg
    push_neg at hneg
    have hneg' : (d.intVal : ℚ) < 0 := by exact_mod_cast hneg
    nlinarith
  · intro h
    have h' : (0 : ℚ) ≤ (d.intVal : ℚ) := by exact_mod_cast h
    exact mul_nonneg h' hp.le

/-- With a non-negative exponent the denoted value is the unscaled part
divided by the corresponding power of ten. -/
lemma toRat_eq_div (d : BigDecimal) (h : 0 ≤ d.scale) :
    d.toRat = (d.intVal : ℚ) / 10 ^ d.scale.natAbs := by
  unfold BigDecimal.toRat
  have hs : -d.scale = -(d.scale.natAbs : ℤ) := by omega
  rw [hs, zpow_neg, zpow_natCast, ← div_eq_mul_inv]

/-- The representation-level minimum realizes the value-level minimum. -/
lemma bdMin_toRat (a b : BigDecimal) :
    (bdMin a b).toRat = min a.toRat b.toRat := by
  unfold bdMin
  split_ifs with h
  · exact (min_eq_left h).symm
  · exact (min_eq_right (le_of_not_le h)).symm

/-- The minimum of two decimals with non-negative unscaled parts has a
non-negative unscaled part. -/
lemma bdMin_intVal_nonneg (a b : BigDecimal)
    (ha : 0 ≤ a.intVal) (hb : 0 ≤ b.intVal) : 0 ≤ (bdMin a b).intVal := by
  unfold bdMin
  split_ifs <;> assumption

/-- C4: `Limits::new(relative, absolute)` returns a value if and only if the
relative bound lies in the closed interval `[0, 1]`, for every choice of the
(unvalidated) absolute cap; this range check is the only validation. -/
theorem limits_new_valid_range (r : BigDecimal) (ab : Option ℕ) :
    (Limits.new r ab).isSome ↔ 0 ≤ r.toRat ∧ r.toRat ≤ 1 := by
  unfold Limits.new
  split_ifs with h <;> simp [h]

/-- C3: for every non-negative slippage tolerance and every in-range amount,
`add` and `sub` succeed; `add` never falls below the amount and clamps at the
256-bit maximum instead of wrapping, and `sub` never exceeds the amount and
clamps at zero instead of underflowing. -/
theorem slippage_add_sub_saturating (s : Slippage) (a : ℕ)
    (hi : 0 ≤ s.val.intVal) (ha : a ≤ 2 ^ 256 - 1) :
    ∃ d, s.abs a = some d ∧
      s.add a = some (satAdd256 a d) ∧
      s.sub a = some (a - d) ∧
      a ≤ satAdd256 a d ∧
      a - d ≤ a ∧
      (2 ^ 256 - 1 < a + d → satAdd256 a d = 2 ^ 256 - 1) ∧
      (a < d → a - d = 0) := by
  have habs : s.abs a = some (min
      ((a * s.val.intVal.toNat + 10 ^ min s.val.scale.natAbs (2 ^ 32 - 1) - 1) /
        10 ^ min s.val.scale.natAbs (2 ^ 32 - 1)) (2 ^ 256 - 1)) := by
    simp only [Slippage.abs, if_neg (not_lt.2 hi)]
  refine ⟨_, habs, ?_, ?_, ?_, ?_, ?_, ?_⟩
  · rw [Slippage.add, habs, Option.map_some']
  · rw [Slippage.sub, habs, Option.map_some']
  · exact le_min (Nat.le_add_right _ _) ha
  · exact Nat.sub_le _ _
  · intro h
    exact min_eq_right h.le
  · intro h
    exact Nat.sub_eq_zero_of_le h.le

/-- C3 witness: a concrete instantiation of the saturating-bounds theorem. -/
theorem slippage_add_sub_saturating_witness :
    (0 : ℤ) ≤ (Slippage.mk ⟨3, 1⟩).val.intVal ∧ 7 ≤ 2 ^ 256 - 1 ∧
      (∃ d, (Slippage.mk ⟨3, 1⟩).abs 7 = some d ∧
        (Slippage.mk ⟨3, 1⟩).add 7 = some (satAdd256 7 d) ∧
        (Slippage.mk ⟨3, 1⟩).sub 7 = some (7 - d) ∧
        7 ≤ satAdd256 7 d ∧
        7 - d ≤ 7 ∧
        (2 ^ 256 - 1 < 7 + d → satAdd256 7 d = 2 ^ 256 - 1) ∧
        (7 < d → 7 - d = 0)) :=
  ⟨by decide, by norm_num, slippage_add_sub_saturating ⟨⟨3, 1⟩⟩ 7 (by decide)
    (by norm_num)⟩

/-- C10: a tolerance with non-negative fraction maps a zero amount to zero
under both `add` and `sub`. -/
theorem zero_amount_unchanged (s : Slippage) (h : 0 ≤ s.toRat) :
    s.add 0 = some 0 ∧ s.sub 0 = some 0 := by
  have hi : 0 ≤ s.val.intVal := (toRat_nonneg_iff s.val).1 h
  have hD : 0 < 10 ^ min s.val.scale.natAbs (2 ^ 32 - 1) :=
    Nat.pow_pos (by norm_num)
  have habs : s.abs 0 = some 0 := by
    simp only [Slippage.abs, if_neg (not_lt.2 hi), Nat.zero_mul, Nat.zero_add]
    rw [Nat.div_eq_of_lt (by omega)]
    simp
  constructor
  · simp [Slippage.add, habs, satAdd256]
  · simp [Slippage.sub, habs]

/-- C10 witness: a concrete tolerance maps amount zero to zero. -/
theorem zero_amount_unchanged_witness :
    (0 : ℚ) ≤ Slippage.toRat ⟨⟨5, 3⟩⟩ ∧
      (Slippage.mk ⟨5, 3⟩).add 0 = some 0 ∧
      (Slippage.mk ⟨5, 3⟩).sub 0 = some 0 :=
  ⟨by norm_num [Slippage.toRat, BigDecimal.toRat],
    zero_amount_unchanged ⟨⟨5, 3⟩⟩
      (by norm_num [Slippage.toRat, BigDecimal.toRat])⟩

/-- Unfolding of `Slippage::abs` for a non-negative unscaled part and an
exponent within the `u32` range. -/
lemma abs_eq_of_nonneg (s : Slippage) (a : ℕ) (hi : 0 ≤ s.val.intVal)
    (hle : s.val.scale.natAbs ≤ 2 ^ 32 - 1) :
    s.abs a = some (min
      ((a * s.val.intVal.toNat + 10 ^ s.val.scale.natAbs - 1) /
        10 ^ s.val.scale.natAbs) (2 ^ 256 - 1)) := by
  simp only [Slippage.abs, if_neg (not_lt.2 hi), min_eq_left hle]

/-- Casting the truncation of a non-negative integer to `ℚ` is the cast of
the integer itself. -/
lemma toNat_cast_eq (z : ℤ) (h : 0 ≤ z) : ((z.toNat : ℕ) : ℚ) = (z : ℚ) := by
  exact_mod_cast Int.toNat_of_nonneg h

/-- C2: for a slippage tolerance whose decimal representation has a
non-negative unscaled part and a non-negative exponent below the `u32` cap,
the absolute slippage amount is exactly the least integer at least
`amount × fraction` (big-integer ceiling, rounding up and never down),
converted back to 256 bits saturating at the maximum representable value. -/
theorem slippage_abs_ceiling (s : Slippage) (a : ℕ)
    (hi : 0 ≤ s.val.intVal) (h0 : 0 ≤ s.val.scale)
    (h32 : s.val.scale < 2 ^ 32) :
    ∃ c : ℕ, IsLeast {n : ℕ | (a : ℚ) * s.toRat ≤ (n : ℚ)} c ∧
      s.abs a = some (min c (2 ^ 256 - 1)) := by
  have hle : s.val.scale.natAbs ≤ 2 ^ 32 - 1 := by omega
  have hDpos : (0 : ℕ) < 10 ^ s.val.scale.natAbs := Nat.pow_pos (by norm_num)
  have hQ : (0 : ℚ) < 10 ^ s.val.scale.natAbs := by positivity
  obtain ⟨h1, h2⟩ :=
    ceilDiv_spec (a * s.val.intVal.toNat) (10 ^ s.val.scale.natAbs) hDpos
  have hfrac : s.toRat =
      ((s.val.intVal.toNat : ℚ)) / 10 ^ s.val.scale.natAbs := by
    rw [Slippage.toRat, toRat_eq_div s.val h0, toNat_cast_eq _ hi]
  refine ⟨(a * s.val.intVal.toNat + 10 ^ s.val.scale.natAbs - 1) /
      10 ^ s.val.scale.natAbs, ⟨?_, ?_⟩, ?_⟩
  · show (a : ℚ) * s.toRat ≤ _
    rw [hfrac, mul_div_assoc', div_le_iff hQ]
    exact_mod_cast h1
  · intro n hn
    simp only [Set.mem_setOf_eq] at hn
    rw [hfrac, mul_div_assoc', div_le_iff hQ] at hn
    have hn' : a * s.val.intVal.toNat ≤ n * 10 ^ s.val.scale.natAbs := by
      exact_mod_cast hn
    have h3 : (a * s.val.intVal.toNat + 10 ^ s.val.scale.natAbs - 1) /
        10 ^ s.val.scale.natAbs * 10 ^ s.val.scale.natAbs <
        (n + 1) * 10 ^ s.val.scale.natAbs := by
      rw [Nat.add_mul, Nat.one_mul]
      linarith
    have h4 := lt_of_mul_lt_mul_right h3 (Nat.zero_le _)
    omega
  · exact abs_eq_of_nonneg s a hi hle

/-- C2 witness: concrete instantiation at fraction 0.3 and amount 7, whose
ceiling is 3. -/
theorem slippage_abs_ceiling_witness :
    (0 : ℤ) ≤ (Slippage.mk ⟨3, 1⟩).val.intVal ∧
      (0 : ℤ) ≤ (Slippage.mk ⟨3, 1⟩).val.scale ∧
      (Slippage.mk ⟨3, 1⟩).val.scale < 2 ^ 32 ∧
      (∃ c : ℕ, IsLeast {n : ℕ | (7 : ℚ) * Slippage.toRat ⟨⟨3, 1⟩⟩ ≤ (n : ℚ)} c ∧
        (Slippage.mk ⟨3, 1⟩).abs 7 = some (min c (2 ^ 256 - 1))) :=
  ⟨by decide, by decide, by decide,
    slippage_abs_ceiling ⟨⟨3, 1⟩⟩ 7 (by decide) (by decide) (by decide)⟩

/-- C7: pool-address resolution is insensitive to token order (the pair is
put in ascending numeric order before the CREATE2 hash composition), and —
being a pure function of `(identity, token_a, token_b)` — deterministic. -/
theorem resolve_pool_address_comm (p : PairProvider) (a b : ℕ) (h : a ≠ b) :
    resolve_pool_address p a b = resolve_pool_address p b a := by
  unfold resolve_pool_address tokenPairNew
  rcases Nat.lt_trichotomy a b with hlt | heq | hgt
  · rw [if_pos hlt, if_neg (Nat.lt_asymm hlt), if_pos hlt]
  · exact absurd heq h
  · rw [if_neg (Nat.lt_asymm hgt), if_pos hgt, if_pos hgt]

/-- C7 witness: the repository's own mainnet pair (GNO, WETH) under the
Uniswap V2 factory resolves identically in both orders. -/
theorem resolve_pool_address_comm_witness :
    resolve_pool_address
        (pair_provider_for_factory 0x5C69bEe701ef814a2B6a3EDD4B1652CB9cc5aA6f)
        0x6810e776880c02933d47db1b9fc05908e5386b96
        0xc02aaa39b223fe8d0a0e5c4f27ead9083c756cc2 =
      resolve_pool_address
        (pair_provider_for_factory 0x5C69bEe701ef814a2B6a3EDD4B1652CB9cc5aA6f)
        0xc02aaa39b223fe8d0a0e5c4f27ead9083c756cc2
        0x6810e776880c02933d47db1b9fc05908e5386b96 :=
  resolve_pool_address_comm _ _ _ (by decide)

/-- Folding insertions over a map looks up as: last matching entry of the
list, else the original map. -/
lemma hmFold_get (l : List (ℕ × BigDecimal)) (m : ℕ → Option BigDecimal)
    (t : ℕ) :
    l.foldl (fun m kv => hmInsert m kv.1 kv.2) m t =
      ((l.reverse.find? (fun kv => kv.1 == t)).map Prod.snd).or (m t) := by
  induction l generalizing m with
  | nil => simp
  | cons kv rest ih =>
    rw [List.foldl_cons, ih, List.reverse_cons, List.find?_append]
    by_cases hk : kv.1 = t
    · cases hfind : rest.reverse.find? (fun kv => kv.1 == t) <;>
        simp [hfind, hmInsert, hk]
    · cases hfind : rest.reverse.find? (fun kv => kv.1 == t) <;>
        simp [hfind, hmInsert, hk, Ne.symm hk]

/-- Lookup in a freshly collected map is the last matching entry. -/
lemma hmOfList_get (l : List (ℕ × BigDecimal)) (t : ℕ) :
    hmOfList l t = (l.reverse.find? (fun kv => kv.1 == t)).map Prod.snd := by
  rw [hmOfList, hmFold_get]
  simp [hmEmpty]

/-- Lookup in `Prices::new` in terms of the input list: exact-address lookup
returning the last matching entry, converted to a decimal. -/
lemma prices_new_get (input : List (ℕ × Price)) (t : ℕ) :
    (Prices.new input).get t =
      (input.reverse.find? (fun kv => kv.1 == t)).map
        (fun kv => etherToDecimal kv.2.ether) := by
  show hmOfList _ t = _
  rw [hmOfList_get, ← List.map_reverse, List.find?_map, Option.map_map]
  rfl

/-- Every price stored in a price table is the decimal of some wei value. -/
lemma prices_get_shape (input : List (ℕ × Price)) (t : ℕ) (p : BigDecimal)
    (h : (Prices.new input).get t = some p) : ∃ e : ℕ, p = etherToDecimal e := by
  rw [prices_new_get] at h
  obtain ⟨kv, _, rfl⟩ := Option.map_eq_some'.1 h
  exact ⟨kv.2.ether, rfl⟩

/-- C9: price-table construction has exact-address lookup with last-write-wins
semantics over the input pairs, and a token whose auction entry carries no
reference price is absent from the table built by `for_auction`. -/
theorem prices_lookup_spec :
    (∀ (input : List (ℕ × Price)) (t : ℕ),
      (Prices.new input).get t =
        (input.reverse.find? (fun kv => kv.1 == t)).map
          (fun kv => etherToDecimal kv.2.ether)) ∧
    (∀ (tokens : List (ℕ × Token)) (t : ℕ),
      (∀ tk, (t, tk) ∈ tokens → tk.reference_price = none) →
      (Prices.forAuction tokens).get t = none) := by
  refine ⟨prices_new_get, ?_⟩
  intro tokens t h
  rw [Prices.forAuction, prices_new_get]
  rw [Option.map_eq_none', List.find?_eq_none]
  intro kv hkv
  rw [List.mem_reverse, List.mem_filterMap] at hkv
  obtain ⟨⟨addr, tk⟩, hmem, hmap⟩ := hkv
  obtain ⟨pr, hpr, heq⟩ := Option.map_eq_some'.1 hmap
  simp only [beq_iff_eq]
  intro hkt
  subst heq
  simp only at hkt
  subst hkt
  exact absurd hpr (by rw [h tk hmem]; exact Option.noConfusion)

/-- C9 witness: a duplicate-key table keeps the later entry, and a token
without a reference price is absent. -/
theorem prices_lookup_spec_witness :
    (Prices.new [(1, ⟨5⟩), (1, ⟨7⟩)]).get 1 =
      (([(1, (⟨5⟩ : Price)), (1, ⟨7⟩)].reverse.find? (fun kv => kv.1 == 1)).map
        (fun kv => etherToDecimal kv.2.ether)) ∧
    (Prices.forAuction [(2, ⟨none⟩)]).get 2 = none :=
  ⟨prices_lookup_spec.1 [(1, ⟨5⟩), (1, ⟨7⟩)] 1,
    prices_lookup_spec.2 [(2, ⟨none⟩)] 2 (by
      intro tk h
      simp only [List.mem_singleton, Prod.mk.injEq] at h
      rw [h.2])⟩

/-- C1: with the absolute cap set and a known reference price, the returned
tolerance is the decimal division `absolute / (amount × price)` capped by the
configured relative bound — at the value level, the minimum of the two
rationals; with no cap or no price the returned fraction is exactly the
configured relative bound. -/
theorem limits_relative_formula (l : Limits) (asset : Asset)
    (input : List (ℕ × Price)) :
    (∀ ab p, l.absolute = some ab →
      (Prices.new input).get asset.token = some p →
      l.relativeTol asset (Prices.new input) =
        (bdDiv (etherToDecimal ab) (bdMul (etherToDecimal asset.amount) p)).map
          (fun q => ⟨bdMin q l.relative⟩) ∧
      (∀ q s,
        bdDiv (etherToDecimal ab) (bdMul (etherToDecimal asset.amount) p) =
          some q →
        l.relativeTol asset (Prices.new input) = some s →
        s.toRat = min q.toRat l.relative.toRat)) ∧
    ((l.absolute = none ∨ (Prices.new input).get asset.token = none) →
      l.relativeTol asset (Prices.new input) = some ⟨l.relative⟩) := by
  constructor
  · intro ab p hab hp
    have harm : l.relativeTol asset (Prices.new input) =
        (bdDiv (etherToDecimal ab) (bdMul (etherToDecimal asset.amount) p)).map
          (fun q => ⟨bdMin q l.relative⟩) := by
      rw [Limits.relativeTol, hab, hp]
    refine ⟨harm, ?_⟩
    intro q s hq hs
    rw [harm, hq, Option.map_some'] at hs
    have hsq : s = ⟨bdMin q l.relative⟩ := Option.some_injective _ hs.symm
    rw [hsq, Slippage.toRat, bdMin_toRat]
  · intro h
    rcases h with hab | hp
    · rw [Limits.relativeTol, hab]
    · rw [Limits.relativeTol, hp]
      cases l.absolute <;> rfl

/-- C1 witness: concrete instantiation with a one-entry price table. -/
theorem limits_relative_formula_witness :
    Limits.relativeTol ⟨⟨1, 2⟩, some 2⟩ ⟨5, 3⟩ (Prices.new [(5, ⟨7⟩)]) =
      (bdDiv (etherToDecimal 2)
        (bdMul (etherToDecimal 3) (etherToDecimal 7))).map
        (fun q => ⟨bdMin q ⟨1, 2⟩⟩) :=
  ((limits_relative_formula ⟨⟨1, 2⟩, some 2⟩ ⟨5, 3⟩ [(5, ⟨7⟩)]).1 2
    (etherToDecimal 7) rfl (by rw [prices_new_get]; rfl)).1

/-- Constructor equation for `Limits::new` on an in-range relative bound. -/
lemma limits_new_eq (r : BigDecimal) (ab : Option ℕ)
    (h0 : 0 ≤ r.toRat) (h1 : r.toRat ≤ 1) :
    Limits.new r ab = some ⟨r, ab⟩ := by
  unfold Limits.new
  rw [if_pos ⟨h0, h1⟩]

/-- Decimal division of non-negative operands yields a non-negative unscaled
part (in every branch of the division algorithm). -/
lemma bdDiv_intVal_nonneg (a b q : BigDecimal)
    (ha : 0 ≤ a.intVal) (hb : 0 ≤ b.intVal) (h : bdDiv a b = some q) :
    0 ≤ q.intVal := by
  unfold bdDiv at h
  split_ifs at h with h1 h2 h3 h4 h5
  · have he := Option.some_injective _ h
    subst he
    exact ha
  · have he := Option.some_injective _ h
    subst he
    exact ha
  · have he := Option.some_injective _ h
    subst he
    exact Int.one_nonneg
  · have he := Option.some_injective _ h
    subst he
    simp
    split_ifs <;> positivity
  · exact absurd (by simp [eq_iff_iff, not_lt.2 ha, not_lt.2 hb]) h5

/-- C6: whenever `Limits::relative` on validly constructed limits returns a
tolerance, its fraction lies between zero and the configured relative
bound. -/
theorem relative_fraction_bounded (rel : BigDecimal) (ab : Option ℕ)
    (l : Limits) (hnew : Limits.new rel ab = some l) (asset : Asset)
    (input : List (ℕ × Price)) (s : Slippage)
    (hs : l.relativeTol asset (Prices.new input) = some s) :
    0 ≤ s.toRat ∧ s.toRat ≤ rel.toRat := by
  unfold Limits.new at hnew
  split_ifs at hnew with hv
  · obtain ⟨h0, h1⟩ := hv
    have hl := Option.some_injective _ hnew
    subst hl
    rw [Limits.relativeTol] at hs
    rcases ab with _ | a
    · have he := Option.some_injective _ hs
      rw [← he]
      exact ⟨h0, le_rfl⟩
    · cases hp : (Prices.new input).get asset.token with
      | none =>
        rw [hp] at hs
        have he := Option.some_injective _ hs
        rw [← he]
        exact ⟨h0, le_rfl⟩
      | some p =>
        rw [hp] at hs
        obtain ⟨q, hq, hmap⟩ := Option.map_eq_some'.1 hs
        obtain ⟨e, rfl⟩ := prices_get_shape input asset.token p hp
        have hqn : 0 ≤ q.intVal := by
          refine bdDiv_intVal_nonneg _ _ _ ?_ ?_ hq
          · exact Int.natCast_nonneg _
          · exact mul_nonneg (Int.natCast_nonneg _) (Int.natCast_nonneg _)
        rw [← hmap, Slippage.toRat]
        show 0 ≤ (bdMin q rel).toRat ∧ (bdMin q rel).toRat ≤ rel.toRat
        rw [bdMin_toRat]
        exact ⟨le_min ((toRat_nonneg_iff q).2 hqn) h0, min_le_right _ _⟩

/-- C6 witness: concrete valid limits with no absolute cap return exactly the
relative bound, which satisfies the bounds. -/
theorem relative_fraction_bounded_witness :
    Limits.new ⟨1, 2⟩ none = some ⟨⟨1, 2⟩, none⟩ ∧
      Limits.relativeTol ⟨⟨1, 2⟩, none⟩ ⟨5, 3⟩ (Prices.new []) =
        some ⟨⟨1, 2⟩⟩ ∧
      (0 ≤ Slippage.toRat ⟨⟨1, 2⟩⟩ ∧
        Slippage.toRat ⟨⟨1, 2⟩⟩ ≤ BigDecimal.toRat ⟨1, 2⟩) :=
  ⟨limits_new_eq ⟨1, 2⟩ none (by norm_num [BigDecimal.toRat])
      (by norm_num [BigDecimal.toRat]), rfl,
    relative_fraction_bounded ⟨1, 2⟩ none ⟨⟨1, 2⟩, none⟩
      (limits_new_eq ⟨1, 2⟩ none (by norm_num [BigDecimal.toRat])
        (by norm_num [BigDecimal.toRat])) ⟨5, 3⟩ [] ⟨⟨1, 2⟩⟩ rfl⟩

/-- Division succeeds whenever the divisor's unscaled part is non-zero. -/
lemma bdDiv_isSome (a b : BigDecimal) (hb : b.intVal ≠ 0) :
    ∃ q, bdDiv a b = some q := by
  unfold bdDiv
  rw [if_neg hb]
  split_ifs <;> exact ⟨_, rfl⟩

/-- `add` and `sub` succeed for every tolerance with non-negative unscaled
part. -/
lemma add_sub_total (s : Slippage) (hi : 0 ≤ s.val.intVal) :
    (∀ amt, ∃ v, s.add amt = some v) ∧ (∀ amt, ∃ w, s.sub amt = some w) := by
  have habs : ∀ amt, s.abs amt = some (min
      ((amt * s.val.intVal.toNat + 10 ^ min s.val.scale.natAbs (2 ^ 32 - 1) - 1) /
        10 ^ min s.val.scale.natAbs (2 ^ 32 - 1)) (2 ^ 256 - 1)) := fun amt => by
    simp only [Slippage.abs, if_neg (not_lt.2 hi)]
  constructor <;> intro amt
  · rw [Slippage.add, habs amt, Option.map_some']
    exact ⟨_, rfl⟩
  · rw [Slippage.sub, habs amt, Option.map_some']
    exact ⟨_, rfl⟩

/-- C5 counterexample: validly constructed limits with an absolute cap,
together with a priced token and a zero asset amount, make `Limits::relative`
divide by zero (a panic in the source, `none` here) — refuting the claim that
no operation panics for any 256-bit amount including zero. -/
theorem no_panic_counterexample :
    Limits.new ⟨1, 2⟩ (some 1) = some ⟨⟨1, 2⟩, some 1⟩ ∧
      Limits.relativeTol ⟨⟨1, 2⟩, some 1⟩ ⟨7, 0⟩
        (Prices.new [(7, ⟨10 ^ 18⟩)]) = none :=
  ⟨limits_new_eq ⟨1, 2⟩ (some 1) (by norm_num [BigDecimal.toRat])
      (by norm_num [BigDecimal.toRat]), rfl⟩

/-- C5 amended: for validly constructed limits, `Limits::relative` returns a
value whenever the trade value `amount × price` has non-zero unscaled part
(or the absolute cap is unset, or the token has no price), and on every
returned tolerance `add` and `sub` return a value for every amount; the only
panic is the division by zero at zero trade value. -/
theorem no_panic_except_zero_trade_value (rel : BigDecimal) (ab : Option ℕ)
    (l : Limits) (hnew : Limits.new rel ab = some l) (asset : Asset)
    (input : List (ℕ × Price))
    (hnz : ∀ a p, l.absolute = some a →
      (Prices.new input).get asset.token = some p →
      (bdMul (etherToDecimal asset.amount) p).intVal ≠ 0) :
    ∃ s, l.relativeTol asset (Prices.new input) = some s ∧
      (∀ amt, ∃ v, s.add amt = some v) ∧
      (∀ amt, ∃ w, s.sub amt = some w) := by
  unfold Limits.new at hnew
  split_ifs at hnew with hv
  obtain ⟨h0, h1⟩ := hv
  have hl := Option.some_injective _ hnew
  subst hl
  have hrel0 : 0 ≤ rel.intVal := (toRat_nonneg_iff rel).1 h0
  rw [Limits.relativeTol]
  rcases ab with _ | a
  · exact ⟨⟨rel⟩, rfl, (add_sub_total ⟨rel⟩ hrel0).1,
      (add_sub_total ⟨rel⟩ hrel0).2⟩
  · cases hp : (Prices.new input).get asset.token with
    | none =>
      exact ⟨⟨rel⟩, rfl, (add_sub_total ⟨rel⟩ hrel0).1,
        (add_sub_total ⟨rel⟩ hrel0).2⟩
    | some p =>
      have hbz : (bdMul (etherToDecimal asset.amount) p).intVal ≠ 0 :=
        hnz a p rfl hp
      obtain ⟨q, hq⟩ := bdDiv_isSome (etherToDecimal a) _ hbz
      obtain ⟨e, rfl⟩ := prices_get_shape input asset.token p hp
      have hqn : 0 ≤ q.intVal := by
        refine bdDiv_intVal_nonneg _ _ _ ?_ ?_ hq
        · exact Int.natCast_nonneg _
        · exact mul_nonneg (Int.natCast_nonneg _) (Int.natCast_nonneg _)
      have hmin : 0 ≤ (bdMin q rel).intVal :=
        bdMin_intVal_nonneg _ _ hqn hrel0
      dsimp only
      rw [hq, Option.map_some']
      exact ⟨⟨bdMin q rel⟩, rfl, (add_sub_total ⟨bdMin q rel⟩ hmin).1,
        (add_sub_total ⟨bdMin q rel⟩ hmin).2⟩

/-- C5 witness: concrete valid limits without an absolute cap yield a total
tolerance. -/
theorem no_panic_except_zero_trade_value_witness :
    ∃ s, Limits.relativeTol ⟨⟨1, 2⟩, none⟩ ⟨7, 5⟩ (Prices.new []) = some s ∧
      (∀ amt, ∃ v, s.add amt = some v) ∧
      (∀ amt, ∃ w, s.sub amt = some w) :=
  no_panic_except_zero_trade_value ⟨1, 2⟩ none ⟨⟨1, 2⟩, none⟩
    (limits_new_eq ⟨1, 2⟩ none (by norm_num [BigDecimal.toRat])
      (by norm_num [BigDecimal.toRat]))
    ⟨7, 5⟩ [] (fun a p h _ => Option.noConfusion h)

/-- Core round-trip bound: if `c₁` and `c₂` are the ceilings of `a·i/D` and
`(a+c₁)·i/D` (expressed by their defining products) with `i ≤ D`, then
`a + c₁ - c₂` is strictly within one unit of `a · (1 - (i/D)²)`. -/
lemma round_trip_core (a i D c₁ c₂ : ℕ) (hD : 0 < D) (hiD : i ≤ D)
    (h1 : a * i ≤ c₁ * D) (h2 : c₁ * D < a * i + D)
    (h3 : (a + c₁) * i ≤ c₂ * D) (h4 : c₂ * D < (a + c₁) * i + D)
    (h5 : c₂ ≤ a + c₁) :
    |((a + c₁ - c₂ : ℕ) : ℚ) - (a : ℚ) * (1 - ((i : ℚ) / (D : ℚ)) ^ 2)| < 1 := by
  have hDQ : (0 : ℚ) < (D : ℚ) := by exact_mod_cast hD
  have hsub : ((a + c₁ - c₂ : ℕ) : ℚ) = (a : ℚ) + (c₁ : ℚ) - (c₂ : ℚ) := by
    rw [Nat.cast_sub h5]
    push_cast
    ring
  have H1 : (a : ℚ) * i ≤ (c₁ : ℚ) * D := by exact_mod_cast h1
  have H2 : (c₁ : ℚ) * D < (a : ℚ) * i + D := by exact_mod_cast h2
  have H3 : ((a : ℚ) + c₁) * i ≤ (c₂ : ℚ) * D := by exact_mod_cast h3
  have H4 : (c₂ : ℚ) * D < ((a : ℚ) + c₁) * i + D := by exact_mod_cast h4
  have HI : (0 : ℚ) ≤ (i : ℚ) := by positivity
  have HID : (i : ℚ) ≤ (D : ℚ) := by exact_mod_cast hiD
  have key : ((a : ℚ) + c₁ - c₂) - (a : ℚ) * (1 - ((i : ℚ) / (D : ℚ)) ^ 2) =
      ((c₁ : ℚ) * D * D - (c₂ : ℚ) * D * D + (a : ℚ) * i * i) /
        ((D : ℚ) * D) := by
    field_simp
    ring
  rw [hsub, key, abs_lt]
  constructor
  · rw [lt_div_iff (by positivity)]
    nlinarith [mul_lt_mul_of_pos_right H4 hDQ,
      mul_nonneg (sub_nonneg.2 H1) (sub_nonneg.2 HID)]
  · rw [div_lt_iff (by positivity)]
    nlinarith [mul_lt_mul_of_pos_right H2 hDQ,
      mul_le_mul_of_nonneg_right H3 hDQ.le,
      mul_le_mul_of_nonneg_right H1 HI]

/-- C8 counterexample: with a zero fraction, `sub (add 5) = 5` exactly
(refuting that the round trip is never exactly the original amount); with
fraction one, `sub (add 10) = 0`, ten units away from the amount (refuting
that the round trip is always within one unit of the amount). -/
theorem round_trip_counterexample :
    ((Slippage.mk ⟨0, 0⟩).add 5).bind (fun v => (Slippage.mk ⟨0, 0⟩).sub v) =
      some 5 ∧
    ((Slippage.mk ⟨1, 0⟩).add 10).bind (fun v => (Slippage.mk ⟨1, 0⟩).sub v) =
      some 0 :=
  ⟨rfl, rfl⟩

/-- C8 amended: for a tolerance with fraction in `[0, 1]` (non-negative
unscaled part, exponent in `[0, 2^32)`) and a non-saturating amount, the
round trip `sub (add a)` never exceeds `a` and lies strictly within one unit
of the exact value `a · (1 - f²)`; equality with `a` itself is possible
(e.g. at fraction zero). -/
theorem round_trip_amended (s : Slippage) (a d : ℕ)
    (hi : 0 ≤ s.val.intVal) (h0 : 0 ≤ s.val.scale)
    (h32 : s.val.scale < 2 ^ 32) (hf1 : s.toRat ≤ 1)
    (habs : s.abs a = some d) (hns : a + d ≤ 2 ^ 256 - 1) :
    ∃ v w, s.add a = some v ∧ s.sub v = some w ∧ w ≤ a ∧
      |(w : ℚ) - (a : ℚ) * (1 - s.toRat ^ 2)| < 1 := by
  have hle : s.val.scale.natAbs ≤ 2 ^ 32 - 1 := by omega
  have hD : 0 < 10 ^ s.val.scale.natAbs := Nat.pow_pos (by norm_num)
  have hDQ : (0 : ℚ) < ((10 ^ s.val.scale.natAbs : ℕ) : ℚ) := by
    exact_mod_cast hD
  have hfrac : s.toRat = (s.val.intVal.toNat : ℚ) /
      ((10 ^ s.val.scale.natAbs : ℕ) : ℚ) := by
    rw [Slippage.toRat, toRat_eq_div s.val h0, toNat_cast_eq _ hi]
    norm_cast
  have hiD : s.val.intVal.toNat ≤ 10 ^ s.val.scale.natAbs := by
    rw [hfrac, div_le_one hDQ] at hf1
    exact_mod_cast hf1
  have habs1 := abs_eq_of_nonneg s a hi hle
  obtain ⟨hm1, hm2⟩ :=
    ceilDiv_spec (a * s.val.intVal.toNat) (10 ^ s.val.scale.natAbs) hD
  rw [habs] at habs1
  have hd := Option.some_injective _ habs1
  generalize hc1 : (a * s.val.intVal.toNat + 10 ^ s.val.scale.natAbs - 1) /
      10 ^ s.val.scale.natAbs = c1 at hd hm1 hm2
  have habs2 := abs_eq_of_nonneg s (a + c1) hi hle
  obtain ⟨hn1, hn2⟩ :=
    ceilDiv_spec ((a + c1) * s.val.intVal.toNat) (10 ^ s.val.scale.natAbs) hD
  generalize hc2 : ((a + c1) * s.val.intVal.toNat +
      10 ^ s.val.scale.natAbs - 1) / 10 ^ s.val.scale.natAbs = c2
    at habs2 hn1 hn2
  generalize hIg : s.val.intVal.toNat = i at hfrac hiD hm1 hm2 hn1 hn2 habs2
  generalize hEg : (10 ^ s.val.scale.natAbs : ℕ) = E
    at hfrac hiD hm1 hm2 hn1 hn2 hD hDQ habs2
  -- identify d with the unclamped ceiling c1
  have hdc : d = c1 := by
    rcases le_or_lt c1 (2 ^ 256 - 1) with hcm | hcm
    · rw [hd, min_eq_left hcm]
    · exfalso
      rw [hd, min_eq_right hcm.le] at hns
      have ha0 : a = 0 := by omega
      subst ha0
      rw [Nat.zero_mul, Nat.zero_add] at hm2
      have : c1 < 1 := lt_of_mul_lt_mul_right (by simpa using hm2) (Nat.zero_le E)
      omega
  subst hdc
  -- the addition does not saturate
  have hv : s.add a = some (a + d) := by
    rw [Slippage.add, habs, Option.map_some']
    have : satAdd256 a d = a + d := min_eq_left hns
    rw [this]
  -- the second ceiling is below both the amount and the 256-bit cap
  have hc2le : c2 ≤ a + d := by
    have hb : (a + d) * i ≤ (a + d) * E := Nat.mul_le_mul_left _ hiD
    have : c2 * E < (a + d + 1) * E := by
      rw [Nat.add_mul, Nat.one_mul]
      calc c2 * E < (a + d) * i + E := hn2
        _ ≤ (a + d) * E + E := by omega
    have := lt_of_mul_lt_mul_right this (Nat.zero_le E)
    omega
  have hw : s.sub (a + d) = some (a + d - c2) := by
    rw [Slippage.sub, habs2, Option.map_some',
      min_eq_left (le_trans hc2le hns)]
  -- first ceiling below the second
  have hcc : d ≤ c2 := by
    have h1 : a * i ≤ c2 * E := le_trans (Nat.mul_le_mul_right _ (Nat.le_add_right a d)) hn1
    have : d * E < (c2 + 1) * E := by
      rw [Nat.add_mul, Nat.one_mul]
      calc d * E < a * i + E := hm2
        _ ≤ c2 * E + E := by omega
    have := lt_of_mul_lt_mul_right this (Nat.zero_le E)
    omega
  refine ⟨a + d, a + d - c2, hv, hw, by omega, ?_⟩
  rw [hfrac]
  exact round_trip_core a i E d c2 hD hiD hm1 hm2 hn1 hn2 hc2le

/-- C8 witness: fraction 0.01 and amount 1000 — the round trip gives 999,
within one unit of 1000 · (1 - 0.0001) = 999.9. -/
theorem round_trip_amended_witness :
    (0 : ℤ) ≤ (Slippage.mk ⟨1, 2⟩).val.intVal ∧
      (0 : ℤ) ≤ (Slippage.mk ⟨1, 2⟩).val.scale ∧
      (Slippage.mk ⟨1, 2⟩).val.scale < 2 ^ 32 ∧
      Slippage.toRat ⟨⟨1, 2⟩⟩ ≤ 1 ∧
      (Slippage.mk ⟨1, 2⟩).abs 1000 = some 10 ∧
      1000 + 10 ≤ 2 ^ 256 - 1 ∧
      (∃ v w, (Slippage.mk ⟨1, 2⟩).add 1000 = some v ∧
        (Slippage.mk ⟨1, 2⟩).sub v = some w ∧ w ≤ 1000 ∧
        |(w : ℚ) - ((1000 : ℕ) : ℚ) * (1 - Slippage.toRat ⟨⟨1, 2⟩⟩ ^ 2)| < 1) :=
  ⟨by decide, by decide, by decide,
    by norm_num [Slippage.toRat, BigDecimal.toRat], by rfl, by norm_num,
    round_trip_amended ⟨⟨1, 2⟩⟩ 1000 10 (by decide) (by decide) (by decide)
      (by norm_num [Slippage.toRat, BigDecimal.toRat]) (by rfl) (by norm_num)⟩
